import Mathlib

/-!
Verification development for the lc0 network-as-backend wrapper
(`src/neural/wrapper.cc`) and the instamove search strategies
(policy-head and value-head, `src/unnamed/part_000`).

Floating-point values are modelled as rationals (`ℚ`); the external
numeric routines `FastExp` (from `utils/fastmath.h`) and `std::tan`
are modelled as explicit function parameters, since their bodies are
outside this repository.  The file is organised as: definitions
(shallow embedding of the source), then theorems.
-/

namespace LczeroWrapper

/-! ## Definitions: softmax policy (`NetworkAsBackendComputation::SoftmaxPolicy`) -/

/-- The running maximum computed by the first `std::accumulate` in
`SoftmaxPolicy`: seeded with `-infinity`, so on a nonempty list it is the
maximum of the raw scores; the value is never used on an empty list. -/
def maxRaw : List ℚ → ℚ
  | [] => 0
  | h :: t => t.foldl max h

/-- The in-place transform of the second `std::accumulate`:
`val = FastExp((val - max_p) * temperature)` for every raw score.
`fexp` models `FastExp`. -/
def softmaxVals (fexp : ℚ → ℚ) (temperature : ℚ) (raws : List ℚ) : List ℚ :=
  raws.map (fun v => fexp ((v - maxRaw raws) * temperature))

/-- Full `SoftmaxPolicy` pipeline: exponentiate (with max subtracted),
total, then scale by `1/total` when `total > 0` and by `1` otherwise. -/
def softmaxPolicy (fexp : ℚ → ℚ) (temperature : ℚ) (raws : List ℚ) : List ℚ :=
  let vals := softmaxVals fexp temperature raws
  let total := vals.sum
  let scale := if 0 < total then 1 / total else 1
  vals.map (fun v => v * scale)

/-! ## Definitions: batch computation (`NetworkAsBackendComputation`) -/

/-- Which output slots of an `EvalResultPtr` are non-null (requested). -/
structure ResultPtr where
  rq : Bool
  rd : Bool
  rm : Bool
  rp : Bool
deriving DecidableEq

/-- One batch entry, mirroring `NetworkAsBackendComputation::Entry`:
encoded input (opaque token), legal moves (opaque move tokens), the
caller's result slots, and the symmetry transform. -/
structure Entry where
  input : ℕ
  legal_moves : List ℕ
  result : ResultPtr
  transform : ℕ
deriving DecidableEq

instance : Inhabited Entry := ⟨⟨0, [], ⟨false, false, false, false⟩, 0⟩⟩

/-- The outputs of the underlying `NetworkComputation` after its
`ComputeBlocking`: `GetQVal/GetDVal/GetMVal i` and `GetPVal i nnIdx`. -/
structure NetOutputs where
  q : ℕ → ℚ
  d : ℕ → ℚ
  m : ℕ → ℚ
  p : ℕ → ℕ → ℚ

/-- The values written through one entry's result slots; `none` means the
slot was null and was not written. -/
structure EvalResultW where
  q : Option ℚ
  d : Option ℚ
  m : Option ℚ
  p : Option (List ℚ)
deriving DecidableEq

instance : Inhabited EvalResultW := ⟨⟨none, none, none, none⟩⟩

/-- `AtomicVector::emplace_back`: appends an entry, preserving all earlier
entries and their indices.  A serialisation of the (possibly concurrent)
`AddInput` calls is modelled as a list of entries appended in order. -/
def addInput (entries : List Entry) (e : Entry) : List Entry := entries ++ [e]

/-- The raw policy scores gathered for one entry: for each legal move,
`GetPVal(idx, MoveToNNIndex(move, transform))`.  `mvIdx` models the
external `MoveToNNIndex`. -/
def rawScores (mvIdx : ℕ → ℕ → ℕ) (net : NetOutputs) (i : ℕ) (e : Entry) : List ℚ :=
  e.legal_moves.map (fun mv => net.p i (mvIdx mv e.transform))

/-- The body of the result-distribution loop in `ComputeBlocking` for the
entry at batch index `i`: write each requested slot from the network
output at index `i` (policy via `SoftmaxPolicy`), leave null slots
unwritten. -/
def evalEntry (fexp : ℚ → ℚ) (t : ℚ) (mvIdx : ℕ → ℕ → ℕ) (net : NetOutputs)
    (i : ℕ) (e : Entry) : EvalResultW :=
  { q := if e.result.rq then some (net.q i) else none
    d := if e.result.rd then some (net.d i) else none
    m := if e.result.rm then some (net.m i) else none
    p := if e.result.rp then some (softmaxPolicy fexp t (rawScores mvIdx net i e)) else none }

/-- The result-distribution loop of `ComputeBlocking`, iterating entries
in entry order with the running batch index. -/
def computeBlockingGo (fexp : ℚ → ℚ) (t : ℚ) (mvIdx : ℕ → ℕ → ℕ) (net : NetOutputs) :
    ℕ → List Entry → List EvalResultW
  | _, [] => []
  | i, e :: es =>
    evalEntry fexp t mvIdx net i e :: computeBlockingGo fexp t mvIdx net (i + 1) es

/-- `NetworkAsBackendComputation::ComputeBlocking`: distribute the network
outputs over all accumulated entries, starting at batch index 0. -/
def computeBlocking (fexp : ℚ → ℚ) (t : ℚ) (mvIdx : ℕ → ℕ → ℕ) (net : NetOutputs)
    (entries : List Entry) : List EvalResultW :=
  computeBlockingGo fexp t mvIdx net 0 entries

/-- Identifies one of the four output slots. -/
inductive Slot
  | q
  | d
  | m
  | p
deriving DecidableEq

/-- Whether a result pointer requested a given slot (the slot is non-null). -/
def ptrRequested (r : ResultPtr) : Slot → Bool
  | .q => r.rq
  | .d => r.rd
  | .m => r.rm
  | .p => r.rp

/-- Whether an entry requested a given slot. -/
def slotRequested (e : Entry) (s : Slot) : Bool := ptrRequested e.result s

/-- The slot-writes performed for the entry at index `i`: one write per
requested (non-null) slot, none for null slots. -/
def writesOf (i : ℕ) (r : ResultPtr) : List (ℕ × Slot) :=
  (if r.rq then [(i, Slot.q)] else []) ++
  (if r.rd then [(i, Slot.d)] else []) ++
  (if r.rm then [(i, Slot.m)] else []) ++
  (if r.rp then [(i, Slot.p)] else [])

/-- The full write log of the result-distribution loop, in entry order. -/
def writeLogGo : ℕ → List Entry → List (ℕ × Slot)
  | _, [] => []
  | i, e :: es => writesOf i e.result ++ writeLogGo (i + 1) es

/-- Write log of `ComputeBlocking` over all entries. -/
def writeLog (entries : List Entry) : List (ℕ × Slot) := writeLogGo 0 entries

/-! ## Definitions: backend configuration (`NetworkAsBackend`) -/

/-- The three history-fill modes from `neural/encoder.h`. -/
inductive FillEmptyHistory
  | FEN_ONLY
  | ALWAYS
  | NO
deriving DecidableEq

/-- `EncodeHistoryFill`: maps the configured string to a fill mode.  The
source asserts `history_fill == "no"` on the fallthrough path, so an
unrecognized value is an assertion failure, modelled as `none`. -/
def encodeHistoryFill (history_fill : String) : Option FillEmptyHistory :=
  if history_fill = "fen_only" then some .FEN_ONLY
  else if history_fill = "always" then some .ALWAYS
  else if history_fill = "no" then some .NO
  else none

/-- The observable surface of the underlying `Network` used by
`NetworkAsBackend`: capabilities, CPU flag, thread and batch hints. -/
structure Network where
  has_mlh : Bool
  has_wdl : Bool
  is_cpu : Bool
  threads : ℕ
  minibatch : ℕ
deriving DecidableEq

/-- `BackendAttributes` snapshot. -/
structure BackendAttributes where
  has_mlh : Bool
  has_wdl : Bool
  runs_on_cpu : Bool
  suggested_num_search_threads : ℕ
  recommended_batch_size : ℕ
  maximum_batch_size : ℕ
deriving DecidableEq

/-- The attribute-filling code of the `NetworkAsBackend` constructor:
all fields from the network's capabilities and hints, with
`maximum_batch_size` fixed at 1024. -/
def deriveAttrs (n : Network) : BackendAttributes :=
  { has_mlh := n.has_mlh
    has_wdl := n.has_wdl
    runs_on_cpu := n.is_cpu
    suggested_num_search_threads := n.threads
    recommended_batch_size := n.minibatch
    maximum_batch_size := 1024 }

/-- The configuration keys read by `NetworkAsBackend` from the options
dictionary. -/
structure Options where
  backend_options : String
  weights : String
  policy_softmax_temp : ℚ
  history_fill : String
deriving DecidableEq

/-- Result of `Backend::UpdateConfiguration`. -/
inductive UpdateConfigurationResult
  | NEED_RESTART
  | UPDATE_OK
deriving DecidableEq

/-- State of a `NetworkAsBackend`: the owned network, the two
identity-defining strings captured at construction, the two in-place
parameters, and the attribute snapshot. -/
structure NetworkAsBackend where
  network : Network
  backend_opts : String
  weights_path : String
  softmax_policy_temperature : ℚ
  fill_empty_history : FillEmptyHistory
  attrs : BackendAttributes
deriving DecidableEq

/-- `NetworkAsBackend::UpdateConfiguration`: restart signal when the
backend sub-options or the weights path differ from the captured values
(state untouched); otherwise store `1 / policy_softmax_temp` and the
encoded history fill in place.  An unrecognized history-fill value on
the in-place path is the `EncodeHistoryFill` assertion failure
(`Except.error`). -/
def updateConfiguration (b : NetworkAsBackend) (o : Options) :
    Except Unit (UpdateConfigurationResult × NetworkAsBackend) :=
  if b.backend_opts ≠ o.backend_options then .ok (.NEED_RESTART, b)
  else if b.weights_path ≠ o.weights then .ok (.NEED_RESTART, b)
  else
    match encodeHistoryFill o.history_fill with
    | some f =>
      .ok (.UPDATE_OK,
        { b with
            softmax_policy_temperature := 1 / o.policy_softmax_temp
            fill_empty_history := f })
    | none => .error ()

/-- The `NetworkAsBackend` constructor: captures the sub-options string
and weights path from the options, runs the `UpdateConfiguration` body
(the captured strings equal the options', so it takes the in-place path),
then derives the attribute snapshot from the network. -/
def mkNetworkAsBackend (network : Network) (o : Options) :
    Except Unit NetworkAsBackend :=
  match encodeHistoryFill o.history_fill with
  | none => .error ()
  | some f =>
    .ok { network := network
          backend_opts := o.backend_options
          weights_path := o.weights
          softmax_policy_temperature := 1 / o.policy_softmax_temp
          fill_empty_history := f
          attrs := deriveAttrs network }

/-- `NetworkAsBackend::GetAttributes`: returns the snapshot and leaves
the backend state unchanged (no side effects). -/
def getAttributes (b : NetworkAsBackend) : BackendAttributes × NetworkAsBackend :=
  (b.attrs, b)

/-! ## Definitions: value-head `Score` (`ValueHeadSearch::GetBestMove`) -/

/-- The per-move score of the value-head strategy: negated value and draw
probability from the opponent's perspective, plus an optional forced-mate
distance. -/
structure Score where
  negative_q : ℚ
  d : ℚ
  mate : Option ℤ
deriving DecidableEq

instance : Inhabited Score := ⟨⟨0, 0, none⟩⟩

/-- `Score::operator<`: mate always beats non-mate; between two mates the
shorter distance wins; between two non-mates the lower `negative_q` wins
(the draw probability is never consulted). -/
def scoreLt (a b : Score) : Bool :=
  match a.mate, b.mate with
  | some _, none => true
  | none, some _ => false
  | some ma, some mb => decide (ma < mb)
  | none, none => decide (a.negative_q < b.negative_q)

/-! ## Definitions: move-selection strategies (`part_000`) -/

/-- `GameResult` as classified by `PositionHistory::ComputeGameResult`. -/
inductive GameResult
  | UNDECIDED
  | DRAW
  | WHITE_WON
  | BLACK_WON
deriving DecidableEq

instance : Inhabited GameResult := ⟨.UNDECIDED⟩

/-- `std::round`: nearest integer, halves rounded away from zero. -/
def cround (x : ℚ) : ℤ := if x < 0 then -(⌊-x + 1/2⌋) else ⌊x + 1/2⌋

/-- C++ double-to-int conversion (truncation toward zero), applied when a
floating-point score expression is stored in an `int` field. -/
def ctrunc (x : ℚ) : ℤ := if x < 0 then -(⌊-x⌋) else ⌊x⌋

/-- One `ThinkingInfo` record (only the fields these strategies set). -/
structure ThinkingInfo where
  depth : ℕ
  seldepth : ℕ
  nodes : ℤ
  mate : Option ℤ := none
  score : Option ℤ := none
  wdl : Option (ℤ × ℤ × ℤ) := none
deriving DecidableEq

/-- The score-assignment loop of `ValueHeadSearch::GetBestMove`, with the
running network batch index `k`: an undecided child consumes the next
network output (value and draw probability, from the opponent's
perspective); an immediate draw gets the fixed draw score without a
network evaluation; any other terminal is a win, scored as mate in 1
without a network evaluation. -/
def valueScoresGo (net : ℕ → ℚ × ℚ) : ℕ → List GameResult → List Score
  | _, [] => []
  | k, .UNDECIDED :: rest =>
    ⟨(net k).1, (net k).2, none⟩ :: valueScoresGo net (k + 1) rest
  | k, .DRAW :: rest => ⟨0, 1, none⟩ :: valueScoresGo net k rest
  | k, .WHITE_WON :: rest => ⟨-1, 0, some 1⟩ :: valueScoresGo net k rest
  | k, .BLACK_WON :: rest => ⟨-1, 0, some 1⟩ :: valueScoresGo net k rest

/-- Number of undecided children in a list (network batch entries used). -/
def countUndecided : List GameResult → ℕ
  | [] => 0
  | .UNDECIDED :: rest => countUndecided rest + 1
  | .DRAW :: rest => countUndecided rest
  | .WHITE_WON :: rest => countUndecided rest
  | .BLACK_WON :: rest => countUndecided rest

/-- The result-slot requests enqueued by the value-head loop: one per
undecided child, asking only for value and draw probability. -/
def valueEnqueues : List GameResult → List ResultPtr
  | [] => []
  | .UNDECIDED :: rest => ⟨true, true, false, false⟩ :: valueEnqueues rest
  | .DRAW :: rest => valueEnqueues rest
  | .WHITE_WON :: rest => valueEnqueues rest
  | .BLACK_WON :: rest => valueEnqueues rest

/-- Specification-side description of the score of child `i`: fixed draw
score for a draw, mate-in-1 for a decisive terminal, otherwise the
network output whose batch index is the number of undecided children
before `i`. -/
def scoreAt (net : ℕ → ℚ × ℚ) (gs : List GameResult) (i : ℕ) : Score :=
  match gs.getD i .DRAW with
  | .UNDECIDED =>
    ⟨(net (countUndecided (gs.take i))).1, (net (countUndecided (gs.take i))).2, none⟩
  | .DRAW => ⟨0, 1, none⟩
  | .WHITE_WON => ⟨-1, 0, some 1⟩
  | .BLACK_WON => ⟨-1, 0, some 1⟩

/-- `std::min_element` over scores indexed by `s`, scanning `0..n-1` and
replacing the current best only on strict improvement, so the first
minimal element is kept. -/
def minIdxF (s : ℕ → Score) : ℕ → ℕ
  | 0 => 0
  | n + 1 => if scoreLt (s n) (s (minIdxF s n)) then n else minIdxF s n

/-- Scores of all legal moves of a value-head search. -/
def valueScores (moves : List (ℕ × GameResult)) (net : ℕ → ℚ × ℚ) : List Score :=
  valueScoresGo net 0 (moves.map Prod.snd)

/-- The index selected by `std::min_element` over the score list. -/
def valueBestIdx (scores : List Score) : ℕ :=
  minIdxF (fun i => scores.getD i default) scores.length

/-- The thinking-info record emitted by the value-head strategy. -/
def valueHeadInfo (ftan : ℚ → ℚ) (n : ℕ) (r : Score) : ThinkingInfo :=
  { depth := 1
    seldepth := 1
    nodes := (n : ℤ)
    mate := r.mate
    score := if r.mate.isSome then none
             else some (ctrunc (-90 * ftan (1.5637541897 * r.negative_q)))
    wdl := if r.mate.isSome then none
           else some (cround (500 * (1 - r.negative_q - r.d)),
                      cround (1000 * r.d),
                      cround (500 * (1 + r.negative_q - r.d))) }

/-- `ValueHeadSearch::GetBestMove`: score every legal move (legal moves
given with the `ComputeGameResult` classification of the child position),
pick the first minimal score, emit the info record with `nodes` equal to
the number of legal moves, and return the selected move.  `ftan` models
`std::tan`. -/
def valueHeadBestMove (ftan : ℚ → ℚ) (moves : List (ℕ × GameResult))
    (net : ℕ → ℚ × ℚ) : ℕ × ThinkingInfo :=
  let scores := valueScores moves net
  let bi := valueBestIdx scores
  ((moves.getD bi default).1, valueHeadInfo ftan moves.length (scores.getD bi default))

/-- `std::max_element` over the policy values indexed by `s`, scanning
`0..n-1` and replacing the current best only when strictly exceeded, so
the first maximal element is kept. -/
def maxIdxF (s : ℕ → ℚ) : ℕ → ℕ
  | 0 => 0
  | n + 1 => if s (maxIdxF s n) < s n then n else maxIdxF s n

/-- The batch submitted by `PolicyHeadSearch::GetBestMove` to
`EvaluateBatch`: a single entry holding the position history and the
legal moves. -/
def policyHeadBatch (positions : List ℕ) (legal : List ℕ) : List (List ℕ × List ℕ) :=
  [(positions, legal)]

/-- The index of the first maximal normalized policy value. -/
def policyBestIdx (p : List ℚ) : ℕ := maxIdxF (fun i => p.getD i 0) p.length

/-- The thinking-info record emitted by the policy-head strategy. -/
def policyHeadInfo (ftan : ℚ → ℚ) (q d : ℚ) : ThinkingInfo :=
  { depth := 1
    seldepth := 1
    nodes := 1
    mate := none
    score := some (ctrunc (90 * ftan (1.5637541897 * q)))
    wdl := some (cround (500 * (1 + q - d)), cround (1000 * d),
                 cround (500 * (1 - q - d))) }

/-- `PolicyHeadSearch::GetBestMove`: given the evaluation result of the
single one-entry batch (value `q`, draw `d`, normalized policy `p` over
the legal moves), pick the legal move at the first maximal policy value,
emitting one info record.  `ftan` models `std::tan`. -/
def policyHeadBestMove (ftan : ℚ → ℚ) (legal : List ℕ) (q d : ℚ) (p : List ℚ) :
    ℕ × ThinkingInfo :=
  (legal.getD (policyBestIdx p) 0, policyHeadInfo ftan q d)

/-! ## Definitions: instamove best-move reporting (`InstamoveSearch`) -/

/-- The best-move report: a primary move and a ponder move; moves are
opaque tokens with 0 the null move (`Move::is_null`). -/
structure BestMoveInfo where
  bestmove : ℕ
  ponder : ℕ := 0
deriving DecidableEq

/-- The perspective correction of `RespondBestMove`: when the side to
move is black, mirror the primary move; otherwise mirror the ponder move
when it is not null.  `flip` models `Move::Flip`. -/
def mirrorBestMove (flip : ℕ → ℕ) (blackToMove : Bool) (info : BestMoveInfo) :
    BestMoveInfo :=
  if blackToMove then { info with bestmove := flip info.bestmove }
  else if info.ponder ≠ 0 then { info with ponder := flip info.ponder }
  else info

/-- The report constructed by `RespondBestMove`: `BestMoveInfo info{bestmove_}`
(null ponder) passed through the perspective correction. -/
def respondBestMoveInfo (flip : ℕ → ℕ) (blackToMove : Bool) (bm : ℕ) : BestMoveInfo :=
  mirrorBestMove flip blackToMove { bestmove := bm, ponder := 0 }

/-- The `go` parameters consulted by `StartSearch`. -/
structure GoParams where
  infinite : Bool
  ponder : Bool
deriving DecidableEq

/-- Search-lifecycle events after `StartSearch`. -/
inductive SearchEv
  | stop
  | abort
deriving DecidableEq

/-- `RespondBestMove` on the `responded_bestmove_` flag: the
`exchange(true)` guard emits a report (count 1) only when the flag was
still false, and sets it in either case. -/
def respondStep (responded : Bool) : Bool × ℕ :=
  if responded then (true, 0) else (true, 1)

/-- Effect of one event: `StopSearch` calls `RespondBestMove`;
`AbortSearch` stores true, suppressing any further report. -/
def evStep (responded : Bool) : SearchEv → Bool × ℕ
  | .stop => respondStep responded
  | .abort => (true, 0)

/-- Run a sequence of stop/abort events, returning the final flag and the
number of best-move reports emitted. -/
def runEvents (responded : Bool) : List SearchEv → Bool × ℕ
  | [] => (responded, 0)
  | e :: es =>
    let s1 := evStep responded e
    let s2 := runEvents s1.1 es
    (s2.1, s1.2 + s2.2)

/-- `StartSearch`: resets the flag to false, computes the move, and
reports immediately unless the request is infinite or pondering. -/
def startSearch (g : GoParams) : Bool × ℕ :=
  if !g.infinite && !g.ponder then respondStep false else (false, 0)

/-- Total number of best-move reports over one search: a `StartSearch`
followed by any sequence of `StopSearch`/`AbortSearch` calls (any
interleaving of concurrent calls is some such sequence, since the guard
flag is atomic). -/
def searchReports (g : GoParams) (evs : List SearchEv) : ℕ :=
  (startSearch g).2 + (runEvents (startSearch g).1 evs).2

/-- Concrete example network used by witnesses. -/
def exNetwork : Network := ⟨true, true, false, 2, 32⟩

/-- Concrete example options used by witnesses. -/
def exOpts : Options := ⟨"", "w.pb", 1, "no"⟩

/-- The backend constructed from `exNetwork` and `exOpts`. -/
def exBackend : NetworkAsBackend :=
  ⟨exNetwork, "", "w.pb", 1 / (1 : ℚ), .NO, deriveAttrs exNetwork⟩

end LczeroWrapper

namespace LczeroWrapper

/-! ## Theorems -/

theorem sum_map_mul_const (l : List ℚ) (c : ℚ) :
    (l.map (fun v => v * c)).sum = l.sum * c := by
  induction l with
  | nil => simp
  | cons h t ih => simp [ih, add_mul]

/-- Claim C1: the policy written by `SoftmaxPolicy` is the per-move
exponentials `fexp ((raw - max) * temperature)` divided by their sum when
that sum is positive (so the output sums to 1), and is left unscaled
(scale 1) when the sum is `≤ 0`; the exponentials are non-negative
whenever the modelled `FastExp` is. -/
theorem softmaxPolicy_spec (fexp : ℚ → ℚ) (temperature : ℚ) (raws : List ℚ)
    (hf : ∀ x, 0 ≤ fexp x) :
    (0 < (softmaxVals fexp temperature raws).sum →
      (softmaxPolicy fexp temperature raws).sum = 1) ∧
    ((softmaxVals fexp temperature raws).sum ≤ 0 →
      softmaxPolicy fexp temperature raws = softmaxVals fexp temperature raws) ∧
    (∀ x ∈ softmaxVals fexp temperature raws, 0 ≤ x) := by
  refine ⟨?_, ?_, ?_⟩
  · intro hpos
    unfold softmaxPolicy
    simp only [if_pos hpos]
    rw [sum_map_mul_const]
    field_simp
  · intro hle
    unfold softmaxPolicy
    simp only [if_neg (not_lt.mpr hle)]
    simp [mul_one]
  · intro x hx
    unfold softmaxVals at hx
    obtain ⟨a, _, rfl⟩ := List.mem_map.mp hx
    exact hf _

/-- Witness for C1 at a concrete input: with `fexp = const 1`,
temperature 1 and raw scores `[0, 0]`, the exponential sum is `2 > 0` and
the output sums to 1. -/
theorem softmaxPolicy_spec_witness :
    0 < (softmaxVals (fun _ => 1) 1 [0, 0]).sum ∧
    (softmaxPolicy (fun _ => 1) 1 [0, 0]).sum = 1 :=
  ⟨by norm_num [softmaxVals, maxRaw],
   (softmaxPolicy_spec (fun _ => 1) 1 [0, 0] (fun _ => by norm_num)).1
     (by norm_num [softmaxVals, maxRaw])⟩

theorem foldl_addInput (inputs : List Entry) :
    ∀ acc, inputs.foldl addInput acc = acc ++ inputs := by
  induction inputs with
  | nil => intro acc; simp
  | cons e es ih => intro acc; simp [addInput, ih]

theorem computeBlockingGo_length (fexp : ℚ → ℚ) (t : ℚ) (mvIdx : ℕ → ℕ → ℕ)
    (net : NetOutputs) (es : List Entry) :
    ∀ k, (computeBlockingGo fexp t mvIdx net k es).length = es.length := by
  induction es with
  | nil => intro k; rfl
  | cons e es ih => intro k; simp [computeBlockingGo, ih]

theorem computeBlockingGo_getD (fexp : ℚ → ℚ) (t : ℚ) (mvIdx : ℕ → ℕ → ℕ)
    (net : NetOutputs) (es : List Entry) :
    ∀ k i, i < es.length →
      (computeBlockingGo fexp t mvIdx net k es).getD i default =
        evalEntry fexp t mvIdx net (k + i) (es.getD i default) := by
  induction es with
  | nil => intro k i h; simp at h
  | cons e es ih =>
    intro k i h
    cases i with
    | zero => simp [computeBlockingGo]
    | succ j =>
      have hj : j < es.length := by simpa using Nat.lt_of_succ_lt_succ h
      have := ih (k + 1) j hj
      simpa [computeBlockingGo, Nat.add_assoc, Nat.add_comm 1 j] using this

theorem count_writesOf (j i : ℕ) (r : ResultPtr) (s : Slot) :
    (writesOf i r).count (j, s) =
      if j = i ∧ ptrRequested r s then 1 else 0 := by
  rcases r with ⟨rq, rd, rm, rp⟩
  by_cases hj : j = i <;>
    cases s <;> cases rq <;> cases rd <;> cases rm <;> cases rp <;>
    simp_all [writesOf, ptrRequested, List.count_append, List.count_cons,
      List.count_nil, Prod.ext_iff]

theorem count_writeLogGo (es : List Entry) :
    ∀ k j s, (writeLogGo k es).count (j, s) =
      if k ≤ j ∧ j - k < es.length ∧ slotRequested (es.getD (j - k) default) s
      then 1 else 0 := by
  induction es with
  | nil => intro k j s; simp [writeLogGo]
  | cons e es ih =>
    intro k j s
    rw [writeLogGo, List.count_append, count_writesOf, ih (k + 1) j s]
    by_cases hj : j = k
    · have h1 : ¬ (k + 1 ≤ j) := by omega
      have h2 : j - k = 0 := by omega
      have h3 : k ≤ j := by omega
      simp [h1, h2, h3, hj, slotRequested]
    · have h0 : ¬ (j = k ∧ ptrRequested e.result s = true) := by
        intro h; exact hj h.1
      rw [if_neg h0]
      by_cases hk : k + 1 ≤ j
      · have hkj : k ≤ j := by omega
        have hsub : j - k = (j - (k + 1)) + 1 := by omega
        have hlen : j - (k + 1) < es.length ↔ j - k < es.length + 1 := by omega
        simp only [hsub, List.getD_cons_succ, List.length_cons]
        by_cases hl : j - (k + 1) < es.length
        · simp [hk, hkj, hl, hlen.mp hl]
        · have : ¬ (j - (k + 1) + 1 < es.length + 1) := by omega
          simp [hl, this]
      · have h2 : ¬ (k ≤ j) := by omega
        simp [hk, h2]

/-- Claim C2: the entries accumulated by a sequence of `AddInput` calls
are exactly the inputs in call order; `ComputeBlocking` produces one
result record per entry (so result-writes equal `AddInput` calls),
iterating in entry order; the record for entry `i` is computed from the
network output at batch index `i` (no cross-assignment); and each
requested slot of entry `i` is written exactly once while null slots are
never written. -/
theorem computeBlocking_spec (fexp : ℚ → ℚ) (t : ℚ) (mvIdx : ℕ → ℕ → ℕ)
    (net : NetOutputs) (inputs : List Entry) :
    (inputs.foldl addInput [] = inputs) ∧
    ((computeBlocking fexp t mvIdx net inputs).length = inputs.length) ∧
    (∀ i, i < inputs.length →
      (computeBlocking fexp t mvIdx net inputs).getD i default =
        evalEntry fexp t mvIdx net i (inputs.getD i default)) ∧
    (∀ i s, (writeLog inputs).count (i, s) =
      if i < inputs.length ∧ slotRequested (inputs.getD i default) s
      then 1 else 0) := by
  refine ⟨by simp [foldl_addInput], computeBlockingGo_length _ _ _ _ _ 0, ?_, ?_⟩
  · intro i h
    simpa using computeBlockingGo_getD fexp t mvIdx net inputs 0 i h
  · intro i s
    rw [writeLog, count_writeLogGo inputs 0 i s]
    simp

/-- Witness for C2 at a concrete input: a one-entry batch requesting only
the value slot gets exactly the network's value output at index 0 and
nothing else. -/
theorem computeBlocking_spec_witness :
    (0 < ([⟨0, [], ⟨true, false, false, false⟩, 0⟩] : List Entry).length) ∧
    (computeBlocking (fun _ => 1) 1 (fun _ _ => 0)
        ⟨fun _ => 7, fun _ => 0, fun _ => 0, fun _ _ => 0⟩
        [⟨0, [], ⟨true, false, false, false⟩, 0⟩]).getD 0 default =
      ⟨some 7, none, none, none⟩ :=
  ⟨by simp,
   by
    rw [(computeBlocking_spec (fun _ => 1) 1 (fun _ _ => 0)
        ⟨fun _ => 7, fun _ => 0, fun _ => 0, fun _ _ => 0⟩
        [⟨0, [], ⟨true, false, false, false⟩, 0⟩]).2.2.1 0 (by simp)]
    rfl⟩

theorem updateConfig_restart_of (b : NetworkAsBackend) (o : Options)
    (h : b.backend_opts ≠ o.backend_options ∨ b.weights_path ≠ o.weights) :
    updateConfiguration b o = .ok (.NEED_RESTART, b) := by
  unfold updateConfiguration
  rcases h with h | h
  · rw [if_pos h]
  · by_cases h1 : b.backend_opts ≠ o.backend_options
    · rw [if_pos h1]
    · rw [if_neg h1, if_pos h]

theorem updateConfig_ok_of (b : NetworkAsBackend) (o : Options) (f : FillEmptyHistory)
    (h1 : b.backend_opts = o.backend_options) (h2 : b.weights_path = o.weights)
    (hf : encodeHistoryFill o.history_fill = some f) :
    updateConfiguration b o =
      .ok (.UPDATE_OK,
        { b with
            softmax_policy_temperature := 1 / o.policy_softmax_temp
            fill_empty_history := f }) := by
  unfold updateConfiguration
  rw [if_neg (not_not_intro h1), if_neg (not_not_intro h2), hf]

/-- Claim C3: `UpdateConfiguration` returns the restart signal, with the
backend (and in particular the network) unchanged, exactly when the
backend sub-options or the weights path differ from the values captured
at construction; otherwise it stores the new softmax temperature and
history fill in place and returns success, and in every non-fatal
outcome the underlying network instance is unchanged. -/
theorem updateConfiguration_spec (b : NetworkAsBackend) (o : Options) :
    ((b.backend_opts ≠ o.backend_options ∨ b.weights_path ≠ o.weights) →
      updateConfiguration b o = .ok (.NEED_RESTART, b)) ∧
    ((∃ b', updateConfiguration b o = .ok (.NEED_RESTART, b')) ↔
      (b.backend_opts ≠ o.backend_options ∨ b.weights_path ≠ o.weights)) ∧
    (∀ f, b.backend_opts = o.backend_options → b.weights_path = o.weights →
      encodeHistoryFill o.history_fill = some f →
      updateConfiguration b o =
        .ok (.UPDATE_OK,
          { b with
              softmax_policy_temperature := 1 / o.policy_softmax_temp
              fill_empty_history := f })) ∧
    (∀ r b', updateConfiguration b o = .ok (r, b') → b'.network = b.network) := by
  refine ⟨updateConfig_restart_of b o, ⟨?_, fun h => ⟨b, updateConfig_restart_of b o h⟩⟩,
    updateConfig_ok_of b o, ?_⟩
  · rintro ⟨b', hb⟩
    by_contra hcon
    push_neg at hcon
    obtain ⟨h1, h2⟩ := hcon
    cases hfe : encodeHistoryFill o.history_fill with
    | none =>
      unfold updateConfiguration at hb
      rw [if_neg (not_not_intro h1), if_neg (not_not_intro h2), hfe] at hb
      cases hb
    | some f =>
      rw [updateConfig_ok_of b o f h1 h2 hfe] at hb
      simp at hb
  · intro r b' hb
    unfold updateConfiguration at hb
    by_cases h1 : b.backend_opts ≠ o.backend_options
    · rw [if_pos h1] at hb
      simp only [Except.ok.injEq, Prod.mk.injEq] at hb
      rw [← hb.2]
    · rw [if_neg h1] at hb
      by_cases h2 : b.weights_path ≠ o.weights
      · rw [if_pos h2] at hb
        simp only [Except.ok.injEq, Prod.mk.injEq] at hb
        rw [← hb.2]
      · rw [if_neg h2] at hb
        cases hfe : encodeHistoryFill o.history_fill with
        | none => rw [hfe] at hb; cases hb
        | some f =>
          rw [hfe] at hb
          simp only [Except.ok.injEq, Prod.mk.injEq] at hb
          rw [← hb.2]

/-- Witness for C3 at a concrete input: changing only the backend
sub-options string yields the restart signal with the backend unchanged. -/
theorem updateConfiguration_spec_witness :
    updateConfiguration exBackend ⟨"x", "w.pb", 1, "no"⟩ =
      .ok (.NEED_RESTART, exBackend) :=
  (updateConfiguration_spec exBackend ⟨"x", "w.pb", 1, "no"⟩).1 (Or.inl (by decide))

/-- Claim C9: the three recognized history-fill strings map to their fill
modes, and any other string is a fatal configuration error: it makes
`EncodeHistoryFill` fail its assertion, so Backend construction fails,
and in-place reconfiguration (when no restart is signalled first) fails
as well, rather than silently selecting a default mode. -/
theorem encodeHistoryFill_spec :
    encodeHistoryFill "fen_only" = some .FEN_ONLY ∧
    encodeHistoryFill "always" = some .ALWAYS ∧
    encodeHistoryFill "no" = some .NO ∧
    (∀ s, s ≠ "fen_only" → s ≠ "always" → s ≠ "no" →
      encodeHistoryFill s = none ∧
      (∀ n o, o.history_fill = s → mkNetworkAsBackend n o = .error ()) ∧
      (∀ b o, o.history_fill = s → b.backend_opts = o.backend_options →
        b.weights_path = o.weights → updateConfiguration b o = .error ())) := by
  refine ⟨rfl, rfl, rfl, ?_⟩
  intro s h1 h2 h3
  have he : encodeHistoryFill s = none := by
    unfold encodeHistoryFill
    rw [if_neg h1, if_neg h2, if_neg h3]
  refine ⟨he, ?_, ?_⟩
  · intro n o ho
    unfold mkNetworkAsBackend
    rw [ho, he]
  · intro b o ho hb hw
    unfold updateConfiguration
    rw [if_neg (not_not_intro hb), if_neg (not_not_intro hw), ho, he]

/-- Witness for C9 at a concrete input: the string `"bad"` is rejected
and Backend construction with it fails. -/
theorem encodeHistoryFill_spec_witness :
    encodeHistoryFill "bad" = none ∧
    mkNetworkAsBackend exNetwork ⟨"", "w.pb", 1, "bad"⟩ = .error () :=
  ⟨(encodeHistoryFill_spec.2.2.2 "bad" (by decide) (by decide) (by decide)).1,
   (encodeHistoryFill_spec.2.2.2 "bad" (by decide) (by decide) (by decide)).2.1
     exNetwork ⟨"", "w.pb", 1, "bad"⟩ rfl⟩

/-- Claim C10: the attribute snapshot is derived from the underlying
network at construction; reconfiguration (restart-signalling or
successful) changes neither the network nor the snapshot, so after any
successful in-place reconfiguration the snapshot still equals the
derivation from the current network; `GetAttributes` returns the
snapshot without modifying the backend. -/
theorem backendAttributes_spec :
    (∀ n o b, mkNetworkAsBackend n o = .ok b →
      b.network = n ∧ b.attrs = deriveAttrs b.network) ∧
    (∀ b o r b', updateConfiguration b o = .ok (r, b') →
      b'.network = b.network ∧ b'.attrs = b.attrs) ∧
    (∀ n o b o' r b', mkNetworkAsBackend n o = .ok b →
      updateConfiguration b o' = .ok (r, b') →
      b'.attrs = deriveAttrs b'.network) ∧
    (∀ b, getAttributes b = (b.attrs, b)) := by
  have hmk : ∀ n o b, mkNetworkAsBackend n o = .ok b →
      b.network = n ∧ b.attrs = deriveAttrs b.network := by
    intro n o b hb
    unfold mkNetworkAsBackend at hb
    cases hfe : encodeHistoryFill o.history_fill with
    | none => rw [hfe] at hb; cases hb
    | some f =>
      rw [hfe] at hb
      simp only [Except.ok.injEq] at hb
      rw [← hb]
      exact ⟨rfl, rfl⟩
  have hupd : ∀ b o r b', updateConfiguration b o = .ok (r, b') →
      b'.network = b.network ∧ b'.attrs = b.attrs := by
    intro b o r b' hb
    unfold updateConfiguration at hb
    by_cases h1 : b.backend_opts ≠ o.backend_options
    · rw [if_pos h1] at hb
      simp only [Except.ok.injEq, Prod.mk.injEq] at hb
      rw [← hb.2]
      exact ⟨rfl, rfl⟩
    · rw [if_neg h1] at hb
      by_cases h2 : b.weights_path ≠ o.weights
      · rw [if_pos h2] at hb
        simp only [Except.ok.injEq, Prod.mk.injEq] at hb
        rw [← hb.2]
        exact ⟨rfl, rfl⟩
      · rw [if_neg h2] at hb
        cases hfe : encodeHistoryFill o.history_fill with
        | none => rw [hfe] at hb; cases hb
        | some f =>
          rw [hfe] at hb
          simp only [Except.ok.injEq, Prod.mk.injEq] at hb
          rw [← hb.2]
          exact ⟨rfl, rfl⟩
  refine ⟨hmk, hupd, ?_, fun b => rfl⟩
  intro n o b o' r b' hb hb'
  obtain ⟨-, hattrs⟩ := hmk n o b hb
  obtain ⟨hnet', hattrs'⟩ := hupd b o' r b' hb'
  rw [hattrs', hnet', hattrs]

/-- Witness for C10 at a concrete input: constructing from `exNetwork`
yields `exBackend`, whose snapshot is derived from `exNetwork`. -/
theorem backendAttributes_spec_witness :
    mkNetworkAsBackend exNetwork exOpts = .ok exBackend ∧
    exBackend.network = exNetwork ∧ exBackend.attrs = deriveAttrs exBackend.network :=
  ⟨rfl, backendAttributes_spec.1 exNetwork exOpts exBackend rfl⟩

theorem scoreLt_irrefl (a : Score) : scoreLt a a = false := by
  rcases a with ⟨q, d, mate⟩
  cases mate <;> simp [scoreLt]

theorem scoreLt_trans (a b c : Score) (h1 : scoreLt a b = true)
    (h2 : scoreLt b c = true) : scoreLt a c = true := by
  rcases a with ⟨qa, da, ma⟩
  rcases b with ⟨qb, db, mb⟩
  rcases c with ⟨qc, dc, mc⟩
  cases ma <;> cases mb <;> cases mc <;> simp_all [scoreLt] <;> linarith

theorem scoreLt_of_lt_of_not_lt (a b c : Score) (h1 : scoreLt a b = true)
    (h2 : scoreLt c b = false) : scoreLt a c = true := by
  rcases a with ⟨qa, da, ma⟩
  rcases b with ⟨qb, db, mb⟩
  rcases c with ⟨qc, dc, mc⟩
  cases ma <;> cases mb <;> cases mc <;> simp_all [scoreLt] <;> linarith

/-- Counterexample to claim C4 as stated: the comparison is not a total
order on scores.  Two distinct scores with the same mate distance but
different `negative_q` and `d` are incomparable in both directions. -/
theorem scoreLt_not_total_order :
    scoreLt ⟨0, 0, some 2⟩ ⟨1, 1, some 2⟩ = false ∧
    scoreLt ⟨1, 1, some 2⟩ ⟨0, 0, some 2⟩ = false ∧
    (⟨0, 0, some 2⟩ : Score) ≠ ⟨1, 1, some 2⟩ := by
  refine ⟨rfl, rfl, ?_⟩
  intro h
  cases h

/-- Claim C4 (amended): the `Score` comparison is a strict weak order —
irreflexive, transitive, and any two scores are comparable unless they
are equivalent under the comparison (same mate status, equal mate
distances, and equal `negative_q` when neither has a mate) — in which a
score with a forced mate beats any score without one, between two mates
the shorter distance wins, between two non-mates the lower `negative_q`
wins regardless of draw-probability, and in particular `mate=1` always
beats `mate=2`. -/
theorem scoreLt_spec :
    (∀ a : Score, scoreLt a a = false) ∧
    (∀ a b c : Score, scoreLt a b = true → scoreLt b c = true →
      scoreLt a c = true) ∧
    (∀ a b : Score, scoreLt a b = false → scoreLt b a = false →
      (a.mate.isSome = b.mate.isSome ∧
       (∀ ma mb, a.mate = some ma → b.mate = some mb → ma = mb) ∧
       (a.mate = none → a.negative_q = b.negative_q))) ∧
    (∀ a b : Score, a.mate.isSome → b.mate = none → scoreLt a b = true) ∧
    (∀ a b : Score, ∀ ma mb, a.mate = some ma → b.mate = some mb →
      (scoreLt a b = true ↔ ma < mb)) ∧
    (∀ a b : Score, a.mate = none → b.mate = none →
      (scoreLt a b = true ↔ a.negative_q < b.negative_q)) ∧
    (∀ a b : Score, a.mate = some 1 → b.mate = some 2 → scoreLt a b = true) := by
  refine ⟨scoreLt_irrefl, scoreLt_trans, ?_, ?_, ?_, ?_, ?_⟩
  · intro a b h1 h2
    rcases a with ⟨qa, da, ma⟩
    rcases b with ⟨qb, db, mb⟩
    cases ma <;> cases mb <;> simp_all [scoreLt]
    · linarith
    · omega
  · intro a b ha hb
    rcases a with ⟨qa, da, ma⟩
    rcases b with ⟨qb, db, mb⟩
    cases ma <;> cases mb <;> simp_all [scoreLt]
  · intro a b ma mb ha hb
    rcases a with ⟨qa, da, ma'⟩
    rcases b with ⟨qb, db, mb'⟩
    simp_all [scoreLt]
  · intro a b ha hb
    rcases a with ⟨qa, da, ma'⟩
    rcases b with ⟨qb, db, mb'⟩
    simp_all [scoreLt]
  · intro a b ha hb
    rcases a with ⟨qa, da, ma'⟩
    rcases b with ⟨qb, db, mb'⟩
    simp_all [scoreLt]

/-- Witness for C4 at concrete inputs: `mate=1` beats `mate=2`, and
between two non-mates the lower `negative_q` wins despite a larger draw
probability. -/
theorem scoreLt_spec_witness :
    scoreLt ⟨0, 0, some 1⟩ ⟨0, 0, some 2⟩ = true ∧
    scoreLt ⟨0, 1, none⟩ ⟨1, 0, none⟩ = true :=
  ⟨scoreLt_spec.2.2.2.2.2.2 ⟨0, 0, some 1⟩ ⟨0, 0, some 2⟩ rfl rfl,
   (scoreLt_spec.2.2.2.2.2.1 ⟨0, 1, none⟩ ⟨1, 0, none⟩ rfl rfl).mpr (by norm_num)⟩

theorem valueScoresGo_length (net : ℕ → ℚ × ℚ) :
    ∀ (gs : List GameResult) (k : ℕ), (valueScoresGo net k gs).length = gs.length := by
  intro gs
  induction gs with
  | nil => intro k; rfl
  | cons g gs ih => intro k; cases g <;> simp [valueScoresGo, ih]

theorem valueScoresGo_getD (net : ℕ → ℚ × ℚ) :
    ∀ (gs : List GameResult) (k i : ℕ), i < gs.length →
      (valueScoresGo net k gs).getD i default =
        (match gs.getD i .DRAW with
         | .UNDECIDED =>
           (⟨(net (k + countUndecided (gs.take i))).1,
             (net (k + countUndecided (gs.take i))).2, none⟩ : Score)
         | .DRAW => ⟨0, 1, none⟩
         | .WHITE_WON => ⟨-1, 0, some 1⟩
         | .BLACK_WON => ⟨-1, 0, some 1⟩) := by
  intro gs
  induction gs with
  | nil => intro k i h; simp at h
  | cons g gs ih =>
    intro k i h
    cases i with
    | zero => cases g <;> simp [valueScoresGo, countUndecided]
    | succ j =>
      have hj : j < gs.length := by simpa using Nat.lt_of_succ_lt_succ h
      cases g with
      | UNDECIDED =>
        rw [valueScoresGo, List.getD_cons_succ, ih (k + 1) j hj,
          List.getD_cons_succ, List.take_succ_cons]
        cases hgj : gs.getD j GameResult.DRAW <;> simp only [hgj, countUndecided]
        have harith : k + 1 + countUndecided (gs.take j) =
            k + (countUndecided (gs.take j) + 1) := by omega
        rw [harith]
      | DRAW =>
        rw [valueScoresGo, List.getD_cons_succ, ih k j hj,
          List.getD_cons_succ, List.take_succ_cons]
        cases hgj : gs.getD j GameResult.DRAW <;> simp only [hgj, countUndecided]
      | WHITE_WON =>
        rw [valueScoresGo, List.getD_cons_succ, ih k j hj,
          List.getD_cons_succ, List.take_succ_cons]
        cases hgj : gs.getD j GameResult.DRAW <;> simp only [hgj, countUndecided]
      | BLACK_WON =>
        rw [valueScoresGo, List.getD_cons_succ, ih k j hj,
          List.getD_cons_succ, List.take_succ_cons]
        cases hgj : gs.getD j GameResult.DRAW <;> simp only [hgj, countUndecided]

theorem valueEnqueues_mem :
    ∀ (gs : List GameResult), ∀ rp ∈ valueEnqueues gs,
      rp = (⟨true, true, false, false⟩ : ResultPtr) := by
  intro gs
  induction gs with
  | nil => intro rp h; simp [valueEnqueues] at h
  | cons g gs ih =>
    intro rp h
    cases g <;> simp only [valueEnqueues, List.mem_cons] at h <;>
      first
      | (rcases h with h | h
         · exact h
         · exact ih rp h)
      | exact ih rp h

theorem valueEnqueues_length :
    ∀ gs : List GameResult, (valueEnqueues gs).length = countUndecided gs := by
  intro gs
  induction gs with
  | nil => rfl
  | cons g gs ih => cases g <;> simp [valueEnqueues, countUndecided, ih]

theorem minIdxF_lt (s : ℕ → Score) : ∀ n, 0 < n → minIdxF s n < n := by
  intro n
  induction n with
  | zero => intro h; cases h
  | succ m ih =>
    intro _
    rw [minIdxF]
    split
    · omega
    · cases Nat.eq_zero_or_pos m with
      | inl h => subst h; simp [minIdxF]
      | inr h => exact Nat.lt_succ_of_lt (ih h)

theorem minIdxF_not_lt (s : ℕ → Score) :
    ∀ n, ∀ j < n, scoreLt (s j) (s (minIdxF s n)) = false := by
  intro n
  induction n with
  | zero => intro j hj; omega
  | succ m ih =>
    intro j hj
    cases hc : scoreLt (s m) (s (minIdxF s m)) with
    | true =>
      rw [minIdxF, if_pos hc]
      rcases Nat.lt_succ_iff_lt_or_eq.mp hj with hjm | rfl
      · cases hb : scoreLt (s j) (s m) with
        | false => rfl
        | true =>
          have htr := scoreLt_trans _ _ _ hb hc
          rw [ih j hjm] at htr
          cases htr
      · exact scoreLt_irrefl _
    | false =>
      rw [minIdxF, if_neg (by simp [hc])]
      rcases Nat.lt_succ_iff_lt_or_eq.mp hj with hjm | rfl
      · exact ih j hjm
      · exact hc

theorem minIdxF_first (s : ℕ → Score) :
    ∀ n, ∀ j < minIdxF s n, scoreLt (s (minIdxF s n)) (s j) = true := by
  intro n
  induction n with
  | zero => intro j hj; simp [minIdxF] at hj
  | succ m ih =>
    intro j hj
    cases hc : scoreLt (s m) (s (minIdxF s m)) with
    | true =>
      rw [minIdxF, if_pos hc] at hj ⊢
      exact scoreLt_of_lt_of_not_lt _ _ _ hc (minIdxF_not_lt s m j hj)
    | false =>
      rw [minIdxF, if_neg (by simp [hc])] at hj ⊢
      exact ih j hj

/-- Claim C5: the value-head strategy scores every legal move — fixed
draw score for an immediate draw, mate-in-1 for an immediate decisive
terminal (both without a network evaluation), otherwise the network's
value and draw outputs at the batch index given by the number of
undecided children enqueued before it; every enqueued request asks only
for value and draw probability, with one enqueue per undecided child;
after the blocking compute it picks the first move whose score is minimal
under the `Score` order and emits one info record with `nodes` equal to
the number of legal moves. -/
theorem valueHead_spec (ftan : ℚ → ℚ) (moves : List (ℕ × GameResult))
    (net : ℕ → ℚ × ℚ) (hne : moves ≠ []) :
    ((valueScores moves net).length = moves.length) ∧
    (∀ i, i < moves.length →
      (valueScores moves net).getD i default =
        scoreAt net (moves.map Prod.snd) i) ∧
    (∀ rp ∈ valueEnqueues (moves.map Prod.snd),
      rp = (⟨true, true, false, false⟩ : ResultPtr)) ∧
    ((valueEnqueues (moves.map Prod.snd)).length =
      countUndecided (moves.map Prod.snd)) ∧
    (valueBestIdx (valueScores moves net) < moves.length) ∧
    (∀ j, j < moves.length →
      scoreLt ((valueScores moves net).getD j default)
        ((valueScores moves net).getD (valueBestIdx (valueScores moves net)) default)
        = false) ∧
    (∀ j, j < valueBestIdx (valueScores moves net) →
      scoreLt ((valueScores moves net).getD (valueBestIdx (valueScores moves net)) default)
        ((valueScores moves net).getD j default) = true) ∧
    ((valueHeadBestMove ftan moves net).1 =
      (moves.getD (valueBestIdx (valueScores moves net)) default).1) ∧
    ((valueHeadBestMove ftan moves net).2 =
      valueHeadInfo ftan moves.length
        ((valueScores moves net).getD (valueBestIdx (valueScores moves net)) default)) ∧
    ((valueHeadBestMove ftan moves net).2.nodes = (moves.length : ℤ)) := by
  have hlen : (valueScores moves net).length = moves.length := by
    rw [valueScores, valueScoresGo_length]
    exact List.length_map _ _
  have hpos : 0 < (valueScores moves net).length := by
    rw [hlen]
    exact List.length_pos.mpr hne
  refine ⟨hlen, ?_, valueEnqueues_mem _, valueEnqueues_length _, ?_, ?_, ?_, rfl, rfl, ?_⟩
  · intro i hi
    have hi' : i < (moves.map Prod.snd).length := by simpa using hi
    rw [valueScores, valueScoresGo_getD net (moves.map Prod.snd) 0 i hi', scoreAt]
    simp
  · have := minIdxF_lt (fun i => (valueScores moves net).getD i default)
      (valueScores moves net).length hpos
    rw [valueBestIdx]
    omega
  · intro j hj
    exact minIdxF_not_lt (fun i => (valueScores moves net).getD i default)
      (valueScores moves net).length j (by omega)
  · intro j hj
    exact minIdxF_first (fun i => (valueScores moves net).getD i default)
      (valueScores moves net).length j hj
  · rfl

/-- Witness for C5 at a concrete input: with one winning terminal child
and one undecided child, the strategy selects the mate move and reports
`nodes = 2`. -/
theorem valueHead_spec_witness :
    ([(5, GameResult.WHITE_WON), (7, GameResult.UNDECIDED)] : List (ℕ × GameResult)) ≠ [] ∧
    (valueHeadBestMove (fun _ => 0)
        [(5, GameResult.WHITE_WON), (7, GameResult.UNDECIDED)]
        (fun _ => (1 / 2, 1 / 4))).2.nodes =
      (([(5, GameResult.WHITE_WON), (7, GameResult.UNDECIDED)] :
          List (ℕ × GameResult)).length : ℤ) :=
  ⟨by simp,
   (valueHead_spec (fun _ => 0) [(5, .WHITE_WON), (7, .UNDECIDED)]
      (fun _ => (1 / 2, 1 / 4)) (by simp)).2.2.2.2.2.2.2.2.2⟩

theorem maxIdxF_lt (s : ℕ → ℚ) : ∀ n, 0 < n → maxIdxF s n < n := by
  intro n
  induction n with
  | zero => intro h; cases h
  | succ m ih =>
    intro _
    rw [maxIdxF]
    split
    · omega
    · cases Nat.eq_zero_or_pos m with
      | inl h => subst h; simp [maxIdxF]
      | inr h => exact Nat.lt_succ_of_lt (ih h)

theorem maxIdxF_le (s : ℕ → ℚ) : ∀ n, ∀ j < n, s j ≤ s (maxIdxF s n) := by
  intro n
  induction n with
  | zero => intro j hj; omega
  | succ m ih =>
    intro j hj
    by_cases hc : s (maxIdxF s m) < s m
    · rw [maxIdxF, if_pos hc]
      rcases Nat.lt_succ_iff_lt_or_eq.mp hj with hjm | rfl
      · exact le_of_lt (lt_of_le_of_lt (ih j hjm) hc)
      · exact le_refl _
    · rw [maxIdxF, if_neg hc]
      rcases Nat.lt_succ_iff_lt_or_eq.mp hj with hjm | rfl
      · exact ih j hjm
      · exact not_lt.mp hc

theorem maxIdxF_first (s : ℕ → ℚ) :
    ∀ n, ∀ j < maxIdxF s n, s j < s (maxIdxF s n) := by
  intro n
  induction n with
  | zero => intro j hj; simp [maxIdxF] at hj
  | succ m ih =>
    intro j hj
    by_cases hc : s (maxIdxF s m) < s m
    · rw [maxIdxF, if_pos hc] at hj ⊢
      exact lt_of_le_of_lt (maxIdxF_le s m j hj) hc
    · rw [maxIdxF, if_neg hc] at hj ⊢
      exact ih j hj

theorem maxIdxF_uniform (s : ℕ → ℚ) :
    ∀ n, (∀ i < n, ∀ j < n, s i = s j) → maxIdxF s n = 0 := by
  intro n
  induction n with
  | zero => intro _; rfl
  | succ m ih =>
    intro h
    have hb : maxIdxF s m = 0 := by
      rcases Nat.eq_zero_or_pos m with h0 | h0
      · subst h0; rfl
      · exact ih (fun i hi j hj => h i (by omega) j (by omega))
    rw [maxIdxF, hb]
    rcases Nat.eq_zero_or_pos m with h0 | h0
    · subst h0
      rw [if_neg (lt_irrefl _)]
    · rw [if_neg (by rw [h 0 (by omega) m (by omega)]; exact lt_irrefl _)]

/-- Claim C6: the policy-head strategy submits a single one-entry batch;
it returns the legal move at the first maximal normalized policy value
(all values are `≤` it, and all earlier values are strictly below it);
the emitted info record has depth 1, seldepth 1, nodes 1, score
`90 * tan(1.5637541897 * q)` (stored as an int) and WDL permille
`round(500*(1+q-d))`, `round(1000*d)`, `round(500*(1-q-d))`; and under a
uniform policy the first legal move in generation order is picked. -/
theorem policyHead_spec (ftan : ℚ → ℚ) (legal : List ℕ) (q d : ℚ) (p : List ℚ)
    (hne : legal ≠ []) (hlen : p.length = legal.length) :
    (∀ ps : List ℕ, (policyHeadBatch ps legal).length = 1) ∧
    (policyBestIdx p < legal.length) ∧
    (∀ j, j < p.length → p.getD j 0 ≤ p.getD (policyBestIdx p) 0) ∧
    (∀ j, j < policyBestIdx p → p.getD j 0 < p.getD (policyBestIdx p) 0) ∧
    ((policyHeadBestMove ftan legal q d p).1 = legal.getD (policyBestIdx p) 0) ∧
    ((policyHeadBestMove ftan legal q d p).2 =
      ⟨1, 1, 1, none,
       some (ctrunc (90 * ftan (1.5637541897 * q))),
       some (cround (500 * (1 + q - d)), cround (1000 * d),
             cround (500 * (1 - q - d)))⟩) ∧
    ((∀ x ∈ p, ∀ y ∈ p, x = y) →
      (policyHeadBestMove ftan legal q d p).1 = legal.headD 0) := by
  have hppos : 0 < p.length := by
    rw [hlen]
    exact List.length_pos.mpr hne
  refine ⟨fun ps => rfl, ?_, ?_, ?_, rfl, rfl, ?_⟩
  · have := maxIdxF_lt (fun i => p.getD i 0) p.length hppos
    rw [policyBestIdx]
    omega
  · intro j hj
    exact maxIdxF_le (fun i => p.getD i 0) p.length j hj
  · intro j hj
    exact maxIdxF_first (fun i => p.getD i 0) p.length j hj
  · intro hu
    have hz : policyBestIdx p = 0 := by
      rw [policyBestIdx]
      refine maxIdxF_uniform (fun i => p.getD i 0) p.length ?_
      intro i hi j hj
      have hmi : p.getD i 0 ∈ p := by
        rw [List.getD_eq_getElem p 0 hi]
        exact List.getElem_mem hi
      have hmj : p.getD j 0 ∈ p := by
        rw [List.getD_eq_getElem p 0 hj]
        exact List.getElem_mem hj
      exact hu _ hmi _ hmj
    rcases legal with _ | ⟨a, l⟩
    · exact absurd rfl hne
    · simp [policyHeadBestMove, hz]

/-- Witness for C6 at a concrete input: with legal moves `[3, 4]` and a
uniform two-entry policy, the first legal move `3` is picked. -/
theorem policyHead_spec_witness :
    ([3, 4] : List ℕ) ≠ [] ∧
    (policyHeadBestMove (fun _ => 0) [3, 4] 0 0 [1 / 2, 1 / 2]).1 = 3 := by
  refine ⟨by simp, ?_⟩
  have h := (policyHead_spec (fun _ => 0) [3, 4] 0 0 [1 / 2, 1 / 2]
      (by simp) rfl).2.2.2.2.2.2
  have h2 := h (by
    intro x hx y hy
    simp at hx hy
    rw [hx, hy])
  simpa using h2

/-- Claim C7: the perspective correction mirrors exactly the meaningful
move for the current perspective: when black is to move, the primary best
move is mirrored and the ponder move is untouched; otherwise only the
ponder move is mirrored, and only when it is non-null; the report built
by `RespondBestMove` always starts from a null ponder move. -/
theorem mirrorBestMove_spec (flip : ℕ → ℕ) (black : Bool) (info : BestMoveInfo) :
    (black = true →
      mirrorBestMove flip black info = ⟨flip info.bestmove, info.ponder⟩) ∧
    (black = false → info.ponder ≠ 0 →
      mirrorBestMove flip black info = ⟨info.bestmove, flip info.ponder⟩) ∧
    (black = false → info.ponder = 0 →
      mirrorBestMove flip black info = info) ∧
    (respondBestMoveInfo flip black info.bestmove =
      mirrorBestMove flip black ⟨info.bestmove, 0⟩) := by
  rcases info with ⟨bm, pd⟩
  refine ⟨?_, ?_, ?_, rfl⟩
  · rintro rfl
    simp [mirrorBestMove]
  · rintro rfl hpd
    simp only [BestMoveInfo.ponder] at hpd
    simp [mirrorBestMove, hpd]
  · rintro rfl hpd
    simp only [BestMoveInfo.ponder] at hpd
    subst hpd
    simp [mirrorBestMove]

/-- Witness for C7 at a concrete input: with black to move, the primary
move is mirrored and the (null) ponder move is untouched. -/
theorem mirrorBestMove_spec_witness :
    mirrorBestMove Nat.succ true ⟨10, 0⟩ = ⟨11, 0⟩ :=
  (mirrorBestMove_spec Nat.succ true ⟨10, 0⟩).1 rfl

theorem runEvents_true : ∀ evs, runEvents true evs = (true, 0) := by
  intro evs
  induction evs with
  | nil => rfl
  | cons e es ih => cases e <;> simp [runEvents, evStep, respondStep, ih]

theorem runEvents_fst_true :
    ∀ (evs : List SearchEv) (r : Bool), evs ≠ [] → (runEvents r evs).1 = true := by
  intro evs
  induction evs with
  | nil => intro r h; exact absurd rfl h
  | cons e es ih =>
    intro r _
    rcases es with _ | ⟨e2, es2⟩
    · cases e <;> cases r <;> simp [runEvents, evStep, respondStep]
    · simp only [runEvents]
      exact ih _ (by simp)

theorem runEvents_le_one : ∀ (r : Bool) (evs : List SearchEv),
    (runEvents r evs).2 ≤ 1 := by
  intro r evs
  cases r with
  | true => rw [runEvents_true]; omega
  | false =>
    cases evs with
    | nil => simp [runEvents]
    | cons e es =>
      cases e <;> simp [runEvents, evStep, respondStep, runEvents_true]

theorem runEvents_append (l1 l2 : List SearchEv) :
    ∀ r, runEvents r (l1 ++ l2) =
      ((runEvents (runEvents r l1).1 l2).1,
       (runEvents r l1).2 + (runEvents (runEvents r l1).1 l2).2) := by
  induction l1 with
  | nil => intro r; simp [runEvents]
  | cons e es ih =>
    intro r
    simp only [List.cons_append, runEvents, List.append_eq]
    rw [ih, Nat.add_assoc]

/-- Claim C8: over any one search — a `StartSearch` followed by any
sequence of `StopSearch`/`AbortSearch` events — at most one best-move
report is emitted (exactly one for a non-infinite, non-ponder search, the
first reporter winning the exchange); no report is emitted by any event
after an `AbortSearch`; and aborting an infinite/ponder search before any
stop suppresses the report entirely. -/
theorem instamoveReports_spec (g : GoParams) (evs : List SearchEv) :
    (searchReports g evs ≤ 1) ∧
    (g.infinite = false → g.ponder = false → searchReports g evs = 1) ∧
    (∀ pre post, evs = pre ++ SearchEv.abort :: post →
      searchReports g evs = searchReports g (pre ++ [SearchEv.abort])) ∧
    ((g.infinite = true ∨ g.ponder = true) →
      ∀ rest, searchReports g (SearchEv.abort :: rest) = 0) := by
  refine ⟨?_, ?_, ?_, ?_⟩
  · rw [searchReports]
    by_cases hg : (!g.infinite && !g.ponder) = true
    · rw [startSearch, if_pos hg]
      simp [respondStep, runEvents_true]
    · rw [startSearch, if_neg hg]
      have := runEvents_le_one false evs
      simpa using this
  · intro h1 h2
    rw [searchReports, startSearch, if_pos (by rw [h1, h2]; rfl)]
    simp [respondStep, runEvents_true]
  · intro pre post hevs
    subst hevs
    have hassoc : pre ++ SearchEv.abort :: post = (pre ++ [SearchEv.abort]) ++ post := by
      simp
    rw [searchReports, searchReports, hassoc,
      runEvents_append (pre ++ [SearchEv.abort]) post (startSearch g).1]
    have hst : (runEvents (startSearch g).1 (pre ++ [SearchEv.abort])).1 = true :=
      runEvents_fst_true _ _ (by simp)
    rw [hst, runEvents_true]
    simp
  · intro hg rest
    have hns : (!g.infinite && !g.ponder) = false := by
      rcases hg with h | h <;> rw [h] <;> simp
    rw [searchReports, startSearch, if_neg (by rw [hns]; simp)]
    simp [runEvents, evStep, runEvents_true]

/-- Witness for C8 at a concrete input: a stop racing an abort and a
late stop — everything after the abort adds no report. -/
theorem instamoveReports_spec_witness :
    searchReports ⟨false, false⟩ [SearchEv.stop, SearchEv.abort, SearchEv.stop] =
      searchReports ⟨false, false⟩ [SearchEv.stop, SearchEv.abort] :=
  (instamoveReports_spec ⟨false, false⟩
      [SearchEv.stop, SearchEv.abort, SearchEv.stop]).2.2.1
    [SearchEv.stop] [SearchEv.stop] rfl

end LczeroWrapper
